import Mathlib

/-!
Verification development for the hybrid search core of the
`uscadv_nlp_search_api` repository.

The Python modules `app/hybrid.py`, `app/keyword.py` and `app/semantic.py`
are shallowly embedded below.  Python floats are modelled as exact
rationals (`ℚ`); where a claim is about floating-point rounding, an
explicit IEEE-754 binary64 round-to-nearest-even model is used.  Python
dicts keyed by document id are modelled as insertion-ordered association
lists, and fallible collaborators (the FAISS index, the SQLite FTS
connection) as explicit `Option`/`Except` inputs.

Rational arithmetic is written with the kernel-computable operations
`qadd`, `qsub`, `qmul`, `qdiv` (defined via `Rat.divInt`); the bridge
theorems `qadd_eq`, `qsub_eq`, `qmul_eq`, `qdiv_eq` prove them equal to
the ambient field operations of `ℚ`, so symbolic proofs can use ordinary
algebra while concrete runs evaluate by `decide`.
-/

set_option maxRecDepth 2000

namespace Spec2Proof

/-! ## Kernel-computable rational arithmetic -/

/-- Addition on `ℚ` via `Rat.divInt` (equals `a + b`, see `qadd_eq`). -/
def qadd (a b : ℚ) : ℚ := Rat.divInt (a.num * b.den + b.num * a.den) (a.den * b.den)

/-- Multiplication on `ℚ` via `Rat.divInt` (equals `a * b`, see `qmul_eq`). -/
def qmul (a b : ℚ) : ℚ := Rat.divInt (a.num * b.num) (a.den * b.den)

/-- Subtraction on `ℚ` (equals `a - b`, see `qsub_eq`). -/
def qsub (a b : ℚ) : ℚ := qadd a (-b)

/-- Division on `ℚ` via `Rat.divInt` (equals `a / b`, see `qdiv_eq`). -/
def qdiv (a b : ℚ) : ℚ := Rat.divInt (a.num * b.den) (a.den * b.num)


/-- Python's `min(xs)` for a nonempty list of floats (first minimum wins). -/
def pyListMin : List ℚ → ℚ
  | [] => 0
  | x :: xs => xs.foldl (fun acc b => if b < acc then b else acc) x

/-- Python's `max(xs)` for a nonempty list of floats (first maximum wins). -/
def pyListMax : List ℚ → ℚ
  | [] => 0
  | x :: xs => xs.foldl (fun acc b => if acc < b then b else acc) x

/-! ## IEEE-754 binary64 rounding model

Used to settle the numerical claim that the blend weights sum to exactly
`1.0` as Python floats.  `pow2` is an integer power of two over `ℚ`;
`flog2` computes the binade (floor of the base-2 logarithm) of a positive
rational by fueled repeated halving/doubling; `rneInt` rounds a rational
to the nearest integer with ties to even; `roundRNE` composes these into
round-to-nearest-even at 53 bits of precision, which is exact IEEE-754
binary64 rounding throughout the normal range (overflow and subnormals do
not arise for the values of this program). -/

def pow2 (e : Int) : ℚ :=
  if 0 ≤ e then Rat.divInt (2 ^ e.toNat) 1 else Rat.divInt 1 (2 ^ (-e).toNat)

def flog2Up : Nat → ℚ → Int
  | 0, _ => 0
  | fuel + 1, q => if q < 2 then 0 else flog2Up fuel (qdiv q 2) + 1

def flog2Down : Nat → ℚ → Int
  | 0, _ => 0
  | fuel + 1, q => if 1 ≤ q then 0 else flog2Down fuel (qmul q 2) - 1

/-- Floor of the base-2 logarithm of a positive rational (fueled; the fuel
covers the whole binary64 exponent range). -/
def flog2 (q : ℚ) : Int :=
  if 1 ≤ q then flog2Up 1100 q else flog2Down 1100 q

/-- Round a rational to the nearest integer, ties to even. -/
def rneInt (x : ℚ) : Int :=
  if qsub x (Rat.floor x : Int) < qdiv 1 2 then Rat.floor x
  else if qdiv 1 2 < qsub x (Rat.floor x : Int) then Rat.floor x + 1
  else if Rat.floor x % 2 = 0 then Rat.floor x else Rat.floor x + 1

/-- Round-to-nearest-even at 53 significant bits for a positive value. -/
def roundRNEpos (q : ℚ) : ℚ :=
  qmul (rneInt (qmul q (pow2 (52 - flog2 q))) : Int) (pow2 (flog2 q - 52))

/-- Round-to-nearest-even at 53 significant bits: the binary64 rounding of
a real (rational) value, valid in the normal range. -/
def roundRNE (q : ℚ) : ℚ :=
  if q = 0 then 0
  else if 0 < q then roundRNEpos q
  else -roundRNEpos (-q)

/-- Binary64 addition: exact sum, then binary64 rounding. -/
def fpAdd (a b : ℚ) : ℚ := roundRNE (qadd a b)

/-- The exact value of the Python float literal `0.2`. -/
def py0_2 : ℚ := roundRNE (qdiv 2 10)

/-- The exact value of the Python float literal `0.8`. -/
def py0_8 : ℚ := roundRNE (qdiv 8 10)

/-- The exact value of the Python float literal `0.4`. -/
def py0_4 : ℚ := roundRNE (qdiv 4 10)

/-- The exact value of the Python float literal `0.6`. -/
def py0_6 : ℚ := roundRNE (qdiv 6 10)

/-- The exact value of the Python float literal `0.7`. -/
def py0_7 : ℚ := roundRNE (qdiv 7 10)

/-- The exact value of the Python float literal `0.3`. -/
def py0_3 : ℚ := roundRNE (qdiv 3 10)


/-! ## Python string helpers (ASCII fragment)

`pyIsSpace` is Python's `str` whitespace class restricted to ASCII;
`pyStrip` is `str.strip()`; `pySplit` is `str.split()` with no argument
(split on whitespace runs, dropping empty tokens). -/

def pyIsSpace (c : Char) : Bool :=
  c = ' ' || c = '\t' || c = '\n' || c = '\x0d' || c = '\x0b' || c = '\x0c'

def pyStrip (s : String) : String :=
  ⟨((s.toList.dropWhile pyIsSpace).reverse.dropWhile pyIsSpace).reverse⟩

def splitWsAux : List Char → List Char → List String → List String
  | [], cur, acc => if cur = [] then acc else ⟨cur.reverse⟩ :: acc
  | c :: cs, cur, acc =>
    if pyIsSpace c then
      splitWsAux cs [] (if cur = [] then acc else ⟨cur.reverse⟩ :: acc)
    else
      splitWsAux cs (c :: cur) acc

def pySplit (s : String) : List String := (splitWsAux s.toList [] []).reverse

def isUpperLatin (c : Char) : Bool := 'A' ≤ c && c ≤ 'Z'

def isLatinLetter (c : Char) : Bool := isUpperLatin c || ('a' ≤ c && c ≤ 'z')

/-- Python `str.isupper()` on the ASCII-letter fragment: at least one cased
character, and every cased character uppercase.  In the source it is only
ever evaluated on strings already matched by `^[A-Z][A-Za-z]{1,5}$`, where
the ASCII model is exact. -/
def pyIsUpper (s : String) : Bool :=
  s.toList.any isLatinLetter &&
    s.toList.all (fun c => !(isLatinLetter c) || isUpperLatin c)


/-! ## Query classifier (`app/hybrid.py`) -/

/-- `_is_short_query`: the trimmed query splits into at most two
whitespace-delimited words. -/
def _is_short_query (query : String) : Bool :=
  (pySplit (pyStrip query)).length ≤ 2

/-- `re.match(r'^[A-Z]{2,6}$', s)`: 2 to 6 characters, all uppercase Latin. -/
def matchAllCaps (cs : List Char) : Bool :=
  2 ≤ cs.length && cs.length ≤ 6 && cs.all isUpperLatin

/-- `re.match(r'^[A-Z][A-Za-z]{1,5}$', s)`: an uppercase Latin letter
followed by 1 to 5 Latin letters of either case. -/
def matchMixedAcronym (cs : List Char) : Bool :=
  match cs with
  | [] => false
  | c :: rest =>
    isUpperLatin c && 1 ≤ rest.length && rest.length ≤ 5 && rest.all isLatinLetter

/-- `_is_acronym_query`: all-caps 2-6 letters, or the mixed-case pattern
combined with the string-level `isupper()` check. -/
def _is_acronym_query (query : String) : Bool :=
  let cleaned := pyStrip query
  if matchAllCaps cleaned.toList then true
  else if matchMixedAcronym cleaned.toList && pyIsUpper cleaned then true
  else false

/-- `_compute_blend_weights`: acronyms get (0.2, 0.8), other short queries
(0.4, 0.6), longer queries (0.7, 0.3); the weights are the exact binary64
values of the Python float literals. -/
def _compute_blend_weights (query : String) : ℚ × ℚ :=
  let is_short := _is_short_query query
  let is_acronym := _is_acronym_query query
  if is_acronym then (py0_2, py0_8)
  else if is_short then (py0_4, py0_6)
  else (py0_7, py0_3)


/-- The exact value of the Python float literal `0.5`. -/
def py0_5 : ℚ := roundRNE (qdiv 5 10)

/-! ## Data model

A `Metadata` record is a Python dict with string keys and values; `mget`
is `dict.get`.  A `SearchItem` is one retrieval result dict as produced by
`semantic_search`/`keyword_search` (the `normalized_score` key is absent
until `_normalize_scores` sets it).  A `MergedResult` is one entry of the
merged list built by `hybrid_search`, and `HybridOutput` its return
value. -/

abbrev Metadata := List (String × String)

def mget (md : Metadata) (k : String) : Option String :=
  (md.find? (fun p => p.1 == k)).map (fun p => p.2)

structure SearchItem where
  metadata : Metadata
  score : ℚ
  normalized_score : Option ℚ
  source : String
deriving DecidableEq

structure MergedResult where
  metadata : Metadata
  score : ℚ
  semantic_score : Option ℚ
  keyword_score : Option ℚ
  match_reason : String
deriving DecidableEq

structure HybridOutput where
  results : List MergedResult
  search_mode : String
  weights : ℚ × ℚ
deriving DecidableEq

/-! ## Score normalizer (`_normalize_scores` in `app/hybrid.py`)

This is the purely functional view of the transformation: the returned
list (which in Python is the caller's own list, mutated in place — see the
heap model below) with `normalized_score` set on every item. -/

def _normalize_scores (results : List SearchItem) (source : String) : List SearchItem :=
  if results.isEmpty then results
  else
    let scores := results.map (fun r => r.score)
    let min_score := pyListMin scores
    let max_score := pyListMax scores
    let score_range := qsub max_score min_score
    if score_range = 0 then
      results.map (fun r => { r with normalized_score := some 1 })
    else
      results.map (fun r =>
        { r with normalized_score := some (qdiv (qsub r.score min_score) score_range) })

/-- Python's `" + ".join(xs)`-style join. -/
def joinSep (sep : String) : List String → String
  | [] => ""
  | [x] => x
  | x :: xs => x ++ sep ++ joinSep sep xs

/-! ## Match explainer (`_generate_match_reason` in `app/hybrid.py`) -/

def _generate_match_reason (semantic_score keyword_score : Option ℚ)
    (semantic_weight keyword_weight : ℚ) : String :=
  let reasons : List String := []
  let reasons := match semantic_score with
    | some s =>
      if py0_3 < s then
        reasons ++ [if py0_7 < s then "strong semantic match"
          else if py0_5 < s then "good semantic match"
          else "partial semantic match"]
      else reasons
    | none => reasons
  let reasons := match keyword_score with
    | some k =>
      if py0_3 < k then
        reasons ++ [if py0_7 < k then "exact keyword match"
          else if py0_5 < k then "keyword match"
          else "partial keyword match"]
      else reasons
    | none => reasons
  let reasons := if reasons.isEmpty then
      (match semantic_score with | some _ => ["semantic similarity"] | none => []) ++
        (match keyword_score with | some _ => ["keyword relevance"] | none => [])
    else reasons
  if reasons.isEmpty then "relevance match" else joinSep " + " reasons

/-! ## Merging (`hybrid_search` in `app/hybrid.py`)

Python dicts keyed by `doc_id` are modelled as insertion-ordered
association lists with overwrite-on-insert.  The iteration order of
`set(semantic) | set(keyword)` is unspecified in Python; the embedding
fixes the deterministic order "semantic keys first, then new keyword
keys", which only pins down the tie-break of the final stable sort. -/

abbrev SIdict := List (String × SearchItem)

/-- Python dict item assignment `m[k] = v`: overwrite in place if the key
is present, else append in insertion order. -/
def dictInsert : SIdict → String → SearchItem → SIdict
  | [], k, v => [(k, v)]
  | p :: t, k, v => if p.1 == k then (k, v) :: t else p :: dictInsert t k v

def dictFind (m : SIdict) (k : String) : Option SearchItem :=
  (m.find? (fun p => p.1 == k)).map (fun p => p.2)

def dictKeys (m : SIdict) : List String := m.map (fun p => p.1)

/-- The dict-building fold of `hybrid_search` from an arbitrary initial
dict (used to reason about `buildById` by induction). -/
def buildByIdFrom (m : SIdict) (rs : List SearchItem) : SIdict :=
  rs.foldl (fun m r =>
    match mget r.metadata "docId" with
    | some id => if id ≠ "" then dictInsert m id r else m
    | none => m) m

/-- Build the per-source lookup dict: items whose metadata has a truthy
(present and non-empty) `docId` are inserted under that id; later
duplicates overwrite earlier ones, as in Python dict assignment. -/
def buildById (rs : List SearchItem) : SIdict :=
  rs.foldl (fun m r =>
    match mget r.metadata "docId" with
    | some id => if id ≠ "" then dictInsert m id r else m
    | none => m) []

/-- The truthy document id of a retrieval result: `some id` when the
metadata's `docId` key is present with a non-empty value, else `none`.
This is the criterion `if doc_id:` used when building the lookup dicts. -/
def itemId (r : SearchItem) : Option String :=
  match mget r.metadata "docId" with
  | some id => if id = "" then none else some id
  | none => none

/-- The truthy document ids of a batch, in order. -/
def idsOf (rs : List SearchItem) : List String := rs.filterMap itemId

/-- One merged entry for a given `doc_id`, as built in the merge loop of
`hybrid_search`.  The `none, none` metadata case is unreachable for ids
drawn from the union of the two dicts' keys. -/
def mergeEntry (semM kwM : SIdict) (semantic_weight keyword_weight : ℚ)
    (doc_id : String) : MergedResult :=
  let sem_result := dictFind semM doc_id
  let kw_result := dictFind kwM doc_id
  let sem_score := match sem_result with
    | some r => r.normalized_score.getD 0
    | none => 0
  let kw_score := match kw_result with
    | some r => r.normalized_score.getD 0
    | none => 0
  let blended_score := qadd (qmul semantic_weight sem_score) (qmul keyword_weight kw_score)
  let metadata := match sem_result, kw_result with
    | some r, _ => r.metadata
    | none, some r => r.metadata
    | none, none => []
  { metadata := metadata
    score := blended_score
    semantic_score := if sem_result.isSome then some sem_score else none
    keyword_score := if kw_result.isSome then some kw_score else none
    match_reason := _generate_match_reason
      (if sem_result.isSome then some sem_score else none)
      (if kw_result.isSome then some kw_score else none)
      semantic_weight keyword_weight }

def unionIds (semM kwM : SIdict) : List String :=
  dictKeys semM ++ (dictKeys kwM).filter (fun k => !((dictKeys semM).contains k))

def mergeResults (semantic_results keyword_results : List SearchItem)
    (semantic_weight keyword_weight : ℚ) : List MergedResult :=
  let semM := buildById semantic_results
  let kwM := buildById keyword_results
  (unionIds semM kwM).map (mergeEntry semM kwM semantic_weight keyword_weight)

/-- Stable insertion into a list sorted by descending blended score:
the new element goes after every element with an equal or higher score. -/
def insertDesc (r : MergedResult) : List MergedResult → List MergedResult
  | [] => [r]
  | x :: xs => if x.score < r.score then r :: x :: xs else x :: insertDesc r xs

/-- Stable sort by descending blended score, as Python's
`list.sort(key=lambda x: x["score"], reverse=True)`. -/
def sortByScoreDesc (rs : List MergedResult) : List MergedResult :=
  rs.foldl (fun acc r => insertDesc r acc) []

/-- Python truthiness of `r.get(key)` for a float-or-`None` value:
`None` and `0.0` are falsy. -/
def pyTruthyFloat : Option ℚ → Bool
  | none => false
  | some v => v ≠ 0

/-- The pure fusion pipeline of `hybrid_search`, from the two raw
collaborator batches to the returned dict: weights, per-source
normalization, merge, stable sort, truncation to `top_k`, and the
`search_mode` derivation over the truncated window. -/
def hybrid_search_core (query : String) (top_k : Nat)
    (semantic_results keyword_results : List SearchItem) : HybridOutput :=
  let w := _compute_blend_weights query
  let semN := _normalize_scores semantic_results "semantic"
  let kwN := _normalize_scores keyword_results "keyword"
  let merged := mergeResults semN kwN w.1 w.2
  let sorted := sortByScoreDesc merged
  let top := sorted.take top_k
  let has_semantic := top.any (fun r => pyTruthyFloat r.semantic_score)
  let has_keyword := top.any (fun r => pyTruthyFloat r.keyword_score)
  let search_mode := if has_semantic && has_keyword then "hybrid"
    else if has_semantic then "semantic" else "keyword"
  { results := top, search_mode := search_mode, weights := w }

/-! ## Semantic retrieval adapter (`app/semantic.py`)

The FAISS index is an external collaborator: it is modelled as an
optional ranked hit list (`none` when `store.get_faiss_index()` returns
`None`), and the metadata store as a partial map from vector row index to
metadata.  `semantic_search` replays the source's loop: skip negative
indices, missing metadata and filter mismatches; stop once `top_k`
results are collected. -/

structure FaissHit where
  score : ℚ
  idx : Int
deriving DecidableEq

/-- Python truthiness of an optional string (`None` and `""` are falsy). -/
def optTruthy : Option String → Bool
  | none => false
  | some s => s ≠ ""

/-- `if filter and metadata.get(key) != filter: continue` -/
def filterSkip (f : Option String) (key : String) (md : Metadata) : Bool :=
  match f with
  | some fv => fv ≠ "" && mget md key ≠ some fv
  | none => false

def semLoop (getMeta : Int → Option Metadata) (tf cf : Option String) (top_k : Nat) :
    List FaissHit → List SearchItem → List SearchItem
  | [], acc => acc
  | h :: rest, acc =>
    if h.idx < 0 then semLoop getMeta tf cf top_k rest acc
    else match getMeta h.idx with
      | none => semLoop getMeta tf cf top_k rest acc
      | some md =>
        if filterSkip tf "type" md then semLoop getMeta tf cf top_k rest acc
        else if filterSkip cf "category" md then semLoop getMeta tf cf top_k rest acc
        else
          let acc2 := acc ++ [⟨md, h.score, none, "semantic"⟩]
          if top_k ≤ acc2.length then acc2 else semLoop getMeta tf cf top_k rest acc2

def semantic_search (index : Option (List FaissHit)) (getMeta : Int → Option Metadata)
    (query : String) (top_k : Nat) (type_filter category_filter : Option String) :
    List SearchItem :=
  match index with
  | none => []
  | some hits =>
    let search_k := if optTruthy type_filter || optTruthy category_filter
      then top_k * 3 else top_k
    let search_k := min search_k hits.length
    semLoop getMeta type_filter category_filter top_k (hits.take search_k) []

/-! ## Keyword retrieval adapter (`app/keyword.py`)

`_escape_fts_query` strips characters outside the word / whitespace /
hyphen / apostrophe classes (each is replaced by a space), collapses
whitespace runs and strips; `_build_fts_query` expands the sanitized
query into the FTS5 OR-of-prefixes string.  The SQLite engine is an
external collaborator, modelled as an oracle from the issued query to
either rows or a `sqlite3.Error`; `keyword_search` returns both its
result list and the trace of issued queries, so that "no query issued"
is expressible. -/

/-- ASCII model of the regex class `\w`. -/
def isWordChar (c : Char) : Bool := c.isAlphanum || c = '_'

/-- The apostrophe character (code point 39). -/
def apostropheChar : Char := Char.ofNat 39

def collapseWsAux : Bool → List Char → List Char
  | _, [] => []
  | prevSpace, c :: cs =>
    if pyIsSpace c then
      if prevSpace then collapseWsAux true cs else ' ' :: collapseWsAux true cs
    else c :: collapseWsAux false cs

def _escape_fts_query (query : String) : String :=
  let cleaned := query.toList.map (fun c =>
    if isWordChar c || pyIsSpace c || c = '-' || c = apostropheChar then c else ' ')
  pyStrip ⟨collapseWsAux false cleaned⟩

def _build_fts_query (query : String) : String :=
  let cleaned := _escape_fts_query query
  if cleaned = "" then ""
  else
    let words := pySplit cleaned
    match words with
    | [w] => "\"" ++ w ++ "\"* OR " ++ w
    | _ =>
      let terms := (words.filter (fun w => 2 ≤ w.length)).map
        (fun w => "\"" ++ w ++ "\"*")
      if terms.isEmpty then cleaned else joinSep " OR " terms

structure KwRow where
  doc_id : String
  doc_type : String
  metadata : Metadata
  rank : ℚ
deriving DecidableEq

/-- The SQL query issued to the FTS index: the MATCH string, the two
pushed-down filters, and the LIMIT. -/
structure KwQuery where
  fts : String
  type_filter : Option String
  category_filter : Option String
  limit : Nat
deriving DecidableEq

/-- `keyword_search`: empty FTS query short-circuits to `[]` with no
query issued; a `sqlite3.Error` from the engine is swallowed into `[]`;
otherwise each row's BM25 rank is sign-inverted into a score.  The second
component is the trace of issued queries. -/
def keyword_search (runQuery : KwQuery → Except Unit (List KwRow)) (query : String)
    (top_k : Nat) (type_filter category_filter : Option String) :
    List SearchItem × List KwQuery :=
  let fts_query := _build_fts_query query
  if fts_query = "" then ([], [])
  else
    let call : KwQuery := ⟨fts_query, type_filter, category_filter, top_k⟩
    match runQuery call with
    | Except.error _ => ([], [call])
    | Except.ok rows =>
      (rows.map (fun row => ⟨row.metadata, -row.rank, none, "keyword"⟩), [call])

/-- The over-fetch fan-out used by `hybrid_search` (`fetch_k = 30`). -/
def fetch_k : Nat := 30

/-- The full orchestrator: dispatch to both collaborators with the fixed
fan-out, then run the pure fusion pipeline. -/
def hybrid_search (index : Option (List FaissHit)) (getMeta : Int → Option Metadata)
    (runQuery : KwQuery → Except Unit (List KwRow)) (query : String) (top_k : Nat)
    (type_filter category_filter : Option String) : HybridOutput :=
  hybrid_search_core query top_k
    (semantic_search index getMeta query fetch_k type_filter category_filter)
    ((keyword_search runQuery query fetch_k type_filter category_filter).1)

/-! ## Heap model of `_normalize_scores`

Python result dicts are heap objects aliased by the caller's list.
Addresses are indices into an explicit heap; `_normalize_scores_heap`
returns the heap after the call together with the returned list of
addresses (the same list object, `return results`).  The caller observes
the post-call heap through its own (identical) addresses. -/

structure ScoredDict where
  score : ℚ
  normalized_score : Option ℚ
deriving DecidableEq

def heapScoreAt (heap : List ScoredDict) (a : Nat) : ℚ :=
  ((heap.get? a).getD ⟨0, none⟩).score

/-- Write `normalized_score := v` into the object at heap address `a`
(`r["normalized_score"] = v`). -/
def setNorm (heap : List ScoredDict) (a : Nat) (v : ℚ) : List ScoredDict :=
  match heap.get? a with
  | some o => heap.set a { o with normalized_score := some v }
  | none => heap

/-- The mutation loop: write `g(score)` into every referenced object. -/
def normApply (g : ℚ → ℚ) (heap : List ScoredDict) (refs : List Nat) : List ScoredDict :=
  refs.foldl (fun h a => setNorm h a (g (heapScoreAt h a))) heap

def _normalize_scores_heap (heap : List ScoredDict) (refs : List Nat) :
    List ScoredDict × List Nat :=
  if refs.isEmpty then (heap, refs)
  else
    let scores := refs.map (heapScoreAt heap)
    let min_score := pyListMin scores
    let max_score := pyListMax scores
    let score_range := qsub max_score min_score
    if score_range = 0 then (normApply (fun _ => 1) heap refs, refs)
    else (normApply (fun s => qdiv (qsub s min_score) score_range) heap refs, refs)

/-! ## Definitions following the spec's words (for comparison only) -/

/-- Modelled from the claim's words (C1): the search mode derived from
score PRESENCE over the truncated window — a per-source field counts if
it is not absent, including when it is present with value `0.0`. -/
def specSearchModeByPresence (results : List MergedResult) : String :=
  if (results.any fun r => r.semantic_score.isSome) &&
      (results.any fun r => r.keyword_score.isSome) then "hybrid"
  else if results.any fun r => r.semantic_score.isSome then "semantic"
  else "keyword"

/-- Modelled from the claim's words (C8): tier phrases for each present
score strictly above 0.3, joined semantic-before-keyword with `" + "`;
generic per-source fallback phrases when no tier phrase qualifies but a
score is present; the literal `"relevance match"` when both are absent. -/
def specExplain (semantic_score keyword_score : Option ℚ) : String :=
  let semPhrases : List String := match semantic_score with
    | some s =>
      if py0_3 < s then
        [if py0_7 < s then "strong semantic match"
         else if py0_5 < s then "good semantic match"
         else "partial semantic match"]
      else []
    | none => []
  let kwPhrases : List String := match keyword_score with
    | some k =>
      if py0_3 < k then
        [if py0_7 < k then "exact keyword match"
         else if py0_5 < k then "keyword match"
         else "partial keyword match"]
      else []
    | none => []
  let phrases := semPhrases ++ kwPhrases
  if phrases.isEmpty then
    let fallback :=
      (match semantic_score with | some _ => ["semantic similarity"] | none => []) ++
        (match keyword_score with | some _ => ["keyword relevance"] | none => [])
    if fallback.isEmpty then "relevance match" else joinSep " + " fallback
  else joinSep " + " phrases

/-! ## Bridge lemmas: the kernel-computable ops equal the field ops -/

theorem qadd_eq (a b : ℚ) : qadd a b = a + b := by
  have ha : ((a.den : ℤ) : ℚ) ≠ 0 := by exact_mod_cast a.den_ne_zero
  have hb : ((b.den : ℤ) : ℚ) ≠ 0 := by exact_mod_cast b.den_ne_zero
  rw [qadd, Rat.divInt_eq_div]
  push_cast
  conv_rhs => rw [← Rat.num_div_den a, ← Rat.num_div_den b]
  field_simp

theorem qmul_eq (a b : ℚ) : qmul a b = a * b := by
  have ha : ((a.den : ℤ) : ℚ) ≠ 0 := by exact_mod_cast a.den_ne_zero
  have hb : ((b.den : ℤ) : ℚ) ≠ 0 := by exact_mod_cast b.den_ne_zero
  rw [qmul, Rat.divInt_eq_div]
  push_cast
  conv_rhs => rw [← Rat.num_div_den a, ← Rat.num_div_den b]
  field_simp

theorem qsub_eq (a b : ℚ) : qsub a b = a - b := by
  rw [qsub, qadd_eq]
  ring

theorem qdiv_eq (a b : ℚ) : qdiv a b = a / b := by
  rcases eq_or_ne b 0 with hb0 | hb0
  · subst hb0
    show Rat.divInt (a.num * (0:ℚ).den) (a.den * (0:ℚ).num) = a / 0
    norm_num [Rat.divInt_eq_div]
  · have ha : ((a.den : ℤ) : ℚ) ≠ 0 := by exact_mod_cast a.den_ne_zero
    have hbn : ((b.num : ℤ) : ℚ) ≠ 0 := by
      exact_mod_cast Rat.num_ne_zero.mpr hb0
    have hbd : ((b.den : ℤ) : ℚ) ≠ 0 := by exact_mod_cast b.den_ne_zero
    rw [qdiv, Rat.divInt_eq_div]
    push_cast
    conv_rhs => rw [← Rat.num_div_den a, ← Rat.num_div_den b]
    rw [div_div_div_eq]

/-! ## List minimum / maximum lemmas -/

theorem foldlMin_le_init (l : List ℚ) (acc : ℚ) :
    l.foldl (fun a b => if b < a then b else a) acc ≤ acc := by
  induction l generalizing acc with
  | nil => simp
  | cons x t ih =>
    simp only [List.foldl_cons]
    split
    · exact le_trans (ih x) (le_of_lt (by assumption))
    · exact ih acc

theorem foldlMin_le_mem (l : List ℚ) (acc : ℚ) :
    ∀ x ∈ l, l.foldl (fun a b => if b < a then b else a) acc ≤ x := by
  induction l generalizing acc with
  | nil => intro x hx; cases hx
  | cons y t ih =>
    intro x hx
    rcases List.mem_cons.mp hx with rfl | hx
    · simp only [List.foldl_cons]
      split
      · exact foldlMin_le_init t x
      · exact le_trans (foldlMin_le_init t acc) (not_lt.mp (by assumption))
    · exact ih _ x hx

theorem foldlMin_mem (l : List ℚ) (acc : ℚ) :
    l.foldl (fun a b => if b < a then b else a) acc = acc ∨
      l.foldl (fun a b => if b < a then b else a) acc ∈ l := by
  induction l generalizing acc with
  | nil => simp
  | cons x t ih =>
    simp only [List.foldl_cons]
    split
    · rcases ih x with h | h
      · exact Or.inr (by simp [h])
      · exact Or.inr (List.mem_cons_of_mem _ h)
    · rcases ih acc with h | h
      · exact Or.inl h
      · exact Or.inr (List.mem_cons_of_mem _ h)

theorem pyListMin_le (xs : List ℚ) : ∀ x ∈ xs, pyListMin xs ≤ x := by
  intro x hx
  cases xs with
  | nil => cases hx
  | cons y t =>
    rcases List.mem_cons.mp hx with rfl | hx
    · exact foldlMin_le_init t x
    · exact foldlMin_le_mem t y x hx

theorem pyListMin_mem (xs : List ℚ) (h : xs ≠ []) : pyListMin xs ∈ xs := by
  cases xs with
  | nil => exact absurd rfl h
  | cons y t =>
    rcases foldlMin_mem t y with h' | h'
    · simp [pyListMin, h']
    · exact List.mem_cons_of_mem _ h'

theorem foldlMax_init_le (l : List ℚ) (acc : ℚ) :
    acc ≤ l.foldl (fun a b => if a < b then b else a) acc := by
  induction l generalizing acc with
  | nil => simp
  | cons x t ih =>
    simp only [List.foldl_cons]
    split
    · exact le_trans (le_of_lt (by assumption)) (ih x)
    · exact ih acc

theorem foldlMax_mem_le (l : List ℚ) (acc : ℚ) :
    ∀ x ∈ l, x ≤ l.foldl (fun a b => if a < b then b else a) acc := by
  induction l generalizing acc with
  | nil => intro x hx; cases hx
  | cons y t ih =>
    intro x hx
    rcases List.mem_cons.mp hx with rfl | hx
    · simp only [List.foldl_cons]
      split
      · exact foldlMax_init_le t x
      · exact le_trans (not_lt.mp (by assumption)) (foldlMax_init_le t acc)
    · exact ih _ x hx

theorem foldlMax_mem (l : List ℚ) (acc : ℚ) :
    l.foldl (fun a b => if a < b then b else a) acc = acc ∨
      l.foldl (fun a b => if a < b then b else a) acc ∈ l := by
  induction l generalizing acc with
  | nil => simp
  | cons x t ih =>
    simp only [List.foldl_cons]
    split
    · rcases ih x with h | h
      · exact Or.inr (by simp [h])
      · exact Or.inr (List.mem_cons_of_mem _ h)
    · rcases ih acc with h | h
      · exact Or.inl h
      · exact Or.inr (List.mem_cons_of_mem _ h)

theorem pyListMax_le (xs : List ℚ) : ∀ x ∈ xs, x ≤ pyListMax xs := by
  intro x hx
  cases xs with
  | nil => cases hx
  | cons y t =>
    rcases List.mem_cons.mp hx with rfl | hx
    · exact foldlMax_init_le t x
    · exact foldlMax_mem_le t y x hx

theorem pyListMax_mem (xs : List ℚ) (h : xs ≠ []) : pyListMax xs ∈ xs := by
  cases xs with
  | nil => exact absurd rfl h
  | cons y t =>
    rcases foldlMax_mem t y with h' | h'
    · simp [pyListMax, h']
    · exact List.mem_cons_of_mem _ h'

/-! ## Association-list dict lemmas -/

theorem dictFind_nil (k : String) : dictFind [] k = none := rfl

theorem dictFind_cons (p : String × SearchItem) (t : SIdict) (k : String) :
    dictFind (p :: t) k = if p.1 = k then some p.2 else dictFind t k := by
  rcases eq_or_ne p.1 k with h | h
  · simp [dictFind, List.find?, h]
  · simp [dictFind, List.find?, beq_eq_false_iff_ne.mpr h, h]

theorem dictFind_insert (m : SIdict) (k : String) (v : SearchItem) (k' : String) :
    dictFind (dictInsert m k v) k' = if k' = k then some v else dictFind m k' := by
  induction m with
  | nil =>
    show dictFind [(k, v)] k' = _
    rw [dictFind_cons]
    rcases eq_or_ne k' k with rfl | h
    · simp
    · simp [h, Ne.symm h, dictFind_nil]
  | cons p t ih =>
    by_cases hpk : p.1 = k
    · subst hpk
      have hins : dictInsert (p :: t) p.1 v = (p.1, v) :: t := by
        simp [dictInsert]
      rw [hins, dictFind_cons, dictFind_cons]
      rcases eq_or_ne k' p.1 with rfl | h
      · simp
      · simp [h, Ne.symm h]
    · have hins : dictInsert (p :: t) k v = p :: dictInsert t k v := by
        simp [dictInsert, hpk]
      rw [hins, dictFind_cons, dictFind_cons, ih]
      by_cases hpk' : p.1 = k'
      · subst hpk'
        simp [hpk]
      · simp [hpk']

theorem dictKeys_insert (m : SIdict) (k : String) (v : SearchItem) :
    dictKeys (dictInsert m k v) =
      if k ∈ dictKeys m then dictKeys m else dictKeys m ++ [k] := by
  induction m with
  | nil => simp [dictInsert, dictKeys]
  | cons p t ih =>
    by_cases hpk : p.1 = k
    · subst hpk
      have hins : dictInsert (p :: t) p.1 v = (p.1, v) :: t := by
        simp [dictInsert]
      rw [hins]
      simp [dictKeys]
    · have hins : dictInsert (p :: t) k v = p :: dictInsert t k v := by
        simp [dictInsert, hpk]
      rw [hins]
      rw [show dictKeys (p :: dictInsert t k v) = p.1 :: dictKeys (dictInsert t k v) from rfl]
      rw [show dictKeys (p :: t) = p.1 :: dictKeys t from rfl]
      rw [ih]
      rcases em (k ∈ dictKeys t) with hmem | hmem
      · simp [hmem]
      · simp [hmem, Ne.symm hpk]

theorem dictFind_isSome_iff (m : SIdict) (k : String) :
    (dictFind m k).isSome = true ↔ k ∈ dictKeys m := by
  induction m with
  | nil => simp [dictFind_nil, dictKeys]
  | cons p t ih =>
    rw [dictFind_cons]
    rcases eq_or_ne p.1 k with rfl | hkp
    · simp [dictKeys]
    · simp only [hkp, if_false, dictKeys, List.map_cons, List.mem_cons]
      rw [show List.map (fun p => p.1) t = dictKeys t from rfl]
      constructor
      · intro h; exact Or.inr (ih.mp h)
      · rintro (h | h)
        · exact absurd h.symm hkp
        · exact ih.mpr h

theorem dictFind_eq_none_of_not_mem (m : SIdict) (k : String)
    (h : k ∉ dictKeys m) : dictFind m k = none := by
  rcases hf : dictFind m k with _ | v
  · rfl
  · exact absurd ((dictFind_isSome_iff m k).mp (by simp [hf])) h

/-! ## `buildById` lemmas -/

theorem buildById_eq_from (rs : List SearchItem) : buildById rs = buildByIdFrom [] rs := rfl

theorem buildByIdFrom_cons (m : SIdict) (r : SearchItem) (rs : List SearchItem) :
    buildByIdFrom m (r :: rs) =
      buildByIdFrom
        (match itemId r with
          | some id => dictInsert m id r
          | none => m) rs := by
  show buildByIdFrom
      (match mget r.metadata "docId" with
        | some id => if id ≠ "" then dictInsert m id r else m
        | none => m) rs = _
  congr 1
  unfold itemId
  rcases mget r.metadata "docId" with _ | id
  · rfl
  · by_cases h : id = "" <;> simp [h]

theorem idsOf_cons (r : SearchItem) (rs : List SearchItem) :
    idsOf (r :: rs) =
      (match itemId r with
        | some id => id :: idsOf rs
        | none => idsOf rs) := by
  rcases hid : itemId r with _ | id <;> simp [idsOf, List.filterMap_cons, hid]

theorem buildByIdFrom_find_value (rs : List SearchItem) (m : SIdict)
    (hm : ∀ k v, dictFind m k = some v → itemId v = some k) :
    ∀ k v, dictFind (buildByIdFrom m rs) k = some v → itemId v = some k := by
  induction rs generalizing m with
  | nil => exact hm
  | cons r rs ih =>
    rw [buildByIdFrom_cons]
    rcases hid : itemId r with _ | id
    · exact ih m hm
    · apply ih
      intro k v hf
      replace hf : dictFind (dictInsert m id r) k = some v := hf
      rw [dictFind_insert] at hf
      by_cases hk : k = id
      · subst hk
        rw [if_pos rfl] at hf
        cases hf
        exact hid
      · rw [if_neg hk] at hf
        exact hm k v hf

theorem buildByIdFrom_find_not_mem (rs : List SearchItem) (m : SIdict) (k : String)
    (h : k ∉ idsOf rs) : dictFind (buildByIdFrom m rs) k = dictFind m k := by
  induction rs generalizing m with
  | nil => rfl
  | cons r rs ih =>
    rw [buildByIdFrom_cons]
    rcases hid : itemId r with _ | id
    · rw [idsOf_cons, hid] at h
      exact ih m h
    · rw [idsOf_cons, hid] at h
      replace h : k ∉ id :: idsOf rs := h
      have hk : k ≠ id ∧ k ∉ idsOf rs := by
        constructor
        · intro hkk; exact h (hkk ▸ List.mem_cons_self id (idsOf rs))
        · intro hmem; exact h (List.mem_cons_of_mem _ hmem)
      show dictFind (buildByIdFrom (dictInsert m id r) rs) k = dictFind m k
      rw [ih _ hk.2, dictFind_insert, if_neg hk.1]

theorem buildByIdFrom_keys (rs : List SearchItem) (m : SIdict)
    (hdisj : ∀ k ∈ idsOf rs, k ∉ dictKeys m) (hnd : (idsOf rs).Nodup) :
    dictKeys (buildByIdFrom m rs) = dictKeys m ++ idsOf rs := by
  induction rs generalizing m with
  | nil => simp [buildByIdFrom, idsOf]
  | cons r rs ih =>
    rw [buildByIdFrom_cons, idsOf_cons]
    rcases hid : itemId r with _ | id
    · rw [idsOf_cons, hid] at hdisj hnd
      exact ih m hdisj hnd
    · rw [idsOf_cons, hid] at hdisj hnd
      replace hdisj : ∀ k ∈ id :: idsOf rs, k ∉ dictKeys m := hdisj
      replace hnd : (id :: idsOf rs).Nodup := hnd
      show dictKeys (buildByIdFrom (dictInsert m id r) rs) = dictKeys m ++ (id :: idsOf rs)
      have hidm : id ∉ dictKeys m := hdisj id (List.mem_cons_self _ _)
      have hkeys : dictKeys (dictInsert m id r) = dictKeys m ++ [id] := by
        rw [dictKeys_insert, if_neg hidm]
      have hnd' : (idsOf rs).Nodup := (List.nodup_cons.mp hnd).2
      have hdisj' : ∀ k ∈ idsOf rs, k ∉ dictKeys (dictInsert m id r) := by
        intro k hk
        rw [hkeys]
        intro hmem
        rcases List.mem_append.mp hmem with hkm | hkid
        · exact hdisj k (List.mem_cons_of_mem _ hk) hkm
        · have : k = id := by simpa using hkid
          exact (List.nodup_cons.mp hnd).1 (this ▸ hk)
      rw [ih _ hdisj' hnd', hkeys, List.append_assoc]
      rfl

theorem mem_idsOf_of_mem (rs : List SearchItem) (r : SearchItem) (id : String)
    (hr : r ∈ rs) (hid : itemId r = some id) : id ∈ idsOf rs :=
  List.mem_filterMap.mpr ⟨r, hr, hid⟩

theorem buildByIdFrom_find_mem (rs : List SearchItem) (m : SIdict) (r : SearchItem)
    (id : String) (hr : r ∈ rs) (hid : itemId r = some id) (hnd : (idsOf rs).Nodup) :
    dictFind (buildByIdFrom m rs) id = some r := by
  induction rs generalizing m with
  | nil => cases hr
  | cons r' rs ih =>
    rw [buildByIdFrom_cons]
    rcases List.mem_cons.mp hr with rfl | hr'
    · rw [hid]
      rw [idsOf_cons, hid] at hnd
      have hnotin : id ∉ idsOf rs := (List.nodup_cons.mp hnd).1
      rw [buildByIdFrom_find_not_mem rs _ id hnotin, dictFind_insert, if_pos rfl]
    · rcases hid' : itemId r' with _ | id'
      · rw [idsOf_cons, hid'] at hnd
        exact ih m hr' hnd
      · rw [idsOf_cons, hid'] at hnd
        replace hnd : (id' :: idsOf rs).Nodup := hnd
        exact ih _ hr' (List.nodup_cons.mp hnd).2

theorem buildByIdFrom_filter_valid (rs : List SearchItem) (m : SIdict) :
    buildByIdFrom m (rs.filter (fun r => (itemId r).isSome)) = buildByIdFrom m rs := by
  induction rs generalizing m with
  | nil => rfl
  | cons r rs ih =>
    rcases hid : itemId r with _ | id
    · rw [List.filter_cons, if_neg (by simp [hid])]
      rw [buildByIdFrom_cons, hid]
      exact ih m
    · rw [List.filter_cons, if_pos (by simp [hid])]
      rw [buildByIdFrom_cons, buildByIdFrom_cons, hid]
      exact ih _

/-! ## Sorting and truncation lemmas -/

theorem mem_insertDesc (r x : MergedResult) (l : List MergedResult) :
    x ∈ insertDesc r l ↔ x = r ∨ x ∈ l := by
  induction l with
  | nil => simp [insertDesc]
  | cons y t ih =>
    simp only [insertDesc]
    split
    · simp only [List.mem_cons]
    · simp only [List.mem_cons, ih]
      tauto

theorem mem_sortFold (l acc : List MergedResult) (x : MergedResult) :
    x ∈ l.foldl (fun acc r => insertDesc r acc) acc ↔ x ∈ acc ∨ x ∈ l := by
  induction l generalizing acc with
  | nil => simp
  | cons y t ih =>
    simp only [List.foldl_cons]
    rw [ih, mem_insertDesc]
    simp only [List.mem_cons]
    tauto

theorem mem_sortByScoreDesc (rs : List MergedResult) (x : MergedResult) :
    x ∈ sortByScoreDesc rs ↔ x ∈ rs := by
  unfold sortByScoreDesc
  rw [mem_sortFold]
  simp

theorem mem_results_of_core (query : String) (top_k : Nat)
    (semantic_results keyword_results : List SearchItem) (x : MergedResult)
    (hx : x ∈ (hybrid_search_core query top_k semantic_results keyword_results).results) :
    x ∈ mergeResults (_normalize_scores semantic_results "semantic")
      (_normalize_scores keyword_results "keyword")
      (_compute_blend_weights query).1 (_compute_blend_weights query).2 := by
  replace hx : x ∈ (sortByScoreDesc (mergeResults
      (_normalize_scores semantic_results "semantic")
      (_normalize_scores keyword_results "keyword")
      (_compute_blend_weights query).1 (_compute_blend_weights query).2)).take top_k := hx
  exact (mem_sortByScoreDesc _ x).mp (List.take_subset _ _ hx)

/-! ## Merge-entry lemmas -/

theorem mergeEntry_score (semM kwM : SIdict) (sw kww : ℚ) (id : String) :
    (mergeEntry semM kwM sw kww id).score =
      sw * ((mergeEntry semM kwM sw kww id).semantic_score.getD 0) +
        kww * ((mergeEntry semM kwM sw kww id).keyword_score.getD 0) := by
  rcases hs : dictFind semM id with _ | r <;> rcases hk : dictFind kwM id with _ | r' <;>
    simp [mergeEntry, hs, hk, qadd_eq, qmul_eq]

theorem mergeEntry_semantic_isSome (semM kwM : SIdict) (sw kww : ℚ) (id : String) :
    (mergeEntry semM kwM sw kww id).semantic_score.isSome = (dictFind semM id).isSome := by
  rcases hs : dictFind semM id with _ | r <;> simp [mergeEntry, hs]

theorem mergeEntry_keyword_isSome (semM kwM : SIdict) (sw kww : ℚ) (id : String) :
    (mergeEntry semM kwM sw kww id).keyword_score.isSome = (dictFind kwM id).isSome := by
  rcases hs : dictFind semM id with _ | r <;> rcases hk : dictFind kwM id with _ | r' <;>
    simp [mergeEntry, hs, hk]

theorem mergeEntry_metadata (semM kwM : SIdict) (sw kww : ℚ) (id : String)
    (P : Metadata → Prop)
    (hsem : ∀ v, dictFind semM id = some v → P v.metadata)
    (hkw : ∀ v, dictFind kwM id = some v → P v.metadata)
    (hsome : (dictFind semM id).isSome = true ∨ (dictFind kwM id).isSome = true) :
    P (mergeEntry semM kwM sw kww id).metadata := by
  rcases hs : dictFind semM id with _ | r
  · rcases hk : dictFind kwM id with _ | r'
    · rw [hs, hk] at hsome
      simp at hsome
    · have hmd : (mergeEntry semM kwM sw kww id).metadata = r'.metadata := by
        simp [mergeEntry, hs, hk]
      rw [hmd]
      exact hkw r' hk
  · have hmd : (mergeEntry semM kwM sw kww id).metadata = r.metadata := by
      simp [mergeEntry, hs]
    rw [hmd]
    exact hsem r hs

/-! ## Normalizer branch lemmas -/

theorem _normalize_scores_nil (source : String) : _normalize_scores [] source = [] := rfl

theorem _normalize_scores_all_eq (results : List SearchItem) (source : String)
    (h : results ≠ [])
    (hz : pyListMax (results.map (fun r => r.score)) =
      pyListMin (results.map (fun r => r.score))) :
    _normalize_scores results source =
      results.map (fun r => { r with normalized_score := some 1 }) := by
  unfold _normalize_scores
  rw [if_neg (by simpa [List.isEmpty_iff] using h)]
  rw [if_pos]
  rw [qsub_eq, sub_eq_zero]
  exact hz

theorem _normalize_scores_minmax (results : List SearchItem) (source : String)
    (h : results ≠ [])
    (hz : pyListMax (results.map (fun r => r.score)) ≠
      pyListMin (results.map (fun r => r.score))) :
    _normalize_scores results source =
      results.map (fun r =>
        { r with
          normalized_score :=
            some ((r.score - pyListMin (results.map (fun r => r.score))) /
              (pyListMax (results.map (fun r => r.score)) -
                pyListMin (results.map (fun r => r.score)))) }) := by
  unfold _normalize_scores
  rw [if_neg (by simpa [List.isEmpty_iff] using h)]
  rw [if_neg]
  · apply List.map_congr_left
    intro r _
    rw [qdiv_eq, qsub_eq, qsub_eq]
  · rw [qsub_eq, sub_eq_zero]
    exact hz

/-! ## Classifier lemmas -/

theorem mixedUpper_allCaps (s : String)
    (hm : matchMixedAcronym s.toList = true) (hu : pyIsUpper s = true) :
    matchAllCaps s.toList = true := by
  rcases hcs : s.toList with _ | ⟨c, rest⟩
  · rw [hcs] at hm
    simp [matchMixedAcronym] at hm
  · rw [hcs] at hm
    rw [pyIsUpper, hcs] at hu
    simp only [matchMixedAcronym, Bool.and_eq_true, decide_eq_true_eq] at hm
    obtain ⟨⟨⟨hc, h1⟩, h5⟩, hletters⟩ := hm
    simp only [Bool.and_eq_true, List.all_eq_true] at hu
    obtain ⟨-, hcased⟩ := hu
    simp only [matchAllCaps, Bool.and_eq_true, decide_eq_true_eq, List.all_eq_true,
      List.length_cons]
    refine ⟨⟨by omega, by omega⟩, ?_⟩
    intro x hx
    rcases List.mem_cons.mp hx with rfl | hx'
    · exact hc
    · have hlat : isLatinLetter x = true := List.all_eq_true.mp hletters x hx'
      have := hcased x hx
      rw [hlat] at this
      simpa using this

theorem acronym_eq_allCaps (query : String) :
    _is_acronym_query query = matchAllCaps (pyStrip query).toList := by
  unfold _is_acronym_query
  cases hA : matchAllCaps (pyStrip query).toList
  · simp only [hA, Bool.false_eq_true, if_false]
    cases hB : (matchMixedAcronym (pyStrip query).toList && pyIsUpper (pyStrip query))
    · simp [hB]
    · have hB' : matchMixedAcronym (pyStrip query).toList = true ∧
          pyIsUpper (pyStrip query) = true := by simpa using hB
      rw [mixedUpper_allCaps _ hB'.1 hB'.2] at hA
      cases hA
  · rw [if_pos hA]

/-! ## Heap-model lemmas for the in-place normalizer -/

theorem setNorm_length (heap : List ScoredDict) (a : Nat) (v : ℚ) :
    (setNorm heap a v).length = heap.length := by
  unfold setNorm
  rcases h : heap.get? a with _ | o
  · rfl
  · simp

theorem setNorm_get?_score (heap : List ScoredDict) (a : Nat) (v : ℚ) (b : Nat) :
    ((setNorm heap a v).get? b).map (fun o => o.score) =
      (heap.get? b).map (fun o => o.score) := by
  unfold setNorm
  rcases h : heap.get? a with _ | o
  · rfl
  · by_cases hab : a = b
    · subst hab
      rw [List.get?_set_eq, h]
      rfl
    · rw [List.get?_set_ne _ _ hab]

theorem setNorm_get?_ne (heap : List ScoredDict) (a : Nat) (v : ℚ) (b : Nat)
    (hab : a ≠ b) : (setNorm heap a v).get? b = heap.get? b := by
  unfold setNorm
  rcases h : heap.get? a with _ | o
  · rfl
  · exact List.get?_set_ne _ _ hab

theorem setNorm_get?_self (heap : List ScoredDict) (a : Nat) (v : ℚ)
    (ha : a < heap.length) :
    (setNorm heap a v).get? a = some ⟨heapScoreAt heap a, some v⟩ := by
  unfold setNorm
  rcases h : heap.get? a with _ | o
  · rw [List.get?_eq_none] at h
    omega
  · rw [List.get?_set_eq, h]
    have hsc : heapScoreAt heap a = o.score := by
      unfold heapScoreAt
      rw [h]
      rfl
    rw [hsc]
    rfl

theorem heapScoreAt_setNorm (heap : List ScoredDict) (a : Nat) (v : ℚ) (b : Nat) :
    heapScoreAt (setNorm heap a v) b = heapScoreAt heap b := by
  have h := setNorm_get?_score heap a v b
  unfold heapScoreAt
  rcases h1 : (setNorm heap a v).get? b with _ | o1 <;>
    rcases h2 : heap.get? b with _ | o2 <;> rw [h1, h2] at h <;> simp_all

theorem normApply_length (g : ℚ → ℚ) (l : List Nat) (heap : List ScoredDict) :
    (normApply g heap l).length = heap.length := by
  induction l generalizing heap with
  | nil => rfl
  | cons x t ih =>
    show (normApply g (setNorm heap x (g (heapScoreAt heap x))) t).length = _
    rw [ih, setNorm_length]

theorem normApply_get?_ne (g : ℚ → ℚ) (l : List Nat) (heap : List ScoredDict) (b : Nat)
    (hb : b ∉ l) : (normApply g heap l).get? b = heap.get? b := by
  induction l generalizing heap with
  | nil => rfl
  | cons x t ih =>
    show (normApply g (setNorm heap x (g (heapScoreAt heap x))) t).get? b = _
    rw [ih _ (fun hmem => hb (List.mem_cons_of_mem _ hmem))]
    exact setNorm_get?_ne _ _ _ _ (fun hxb => hb (hxb ▸ List.mem_cons_self x t))

theorem normApply_get?_mem (g : ℚ → ℚ) (l : List Nat) (heap : List ScoredDict) (a : Nat)
    (ha : a ∈ l) (hlen : a < heap.length) :
    (normApply g heap l).get? a =
      some ⟨heapScoreAt heap a, some (g (heapScoreAt heap a))⟩ := by
  induction l generalizing heap with
  | nil => cases ha
  | cons x t ih =>
    show (normApply g (setNorm heap x (g (heapScoreAt heap x))) t).get? a = _
    by_cases hat : a ∈ t
    · rw [ih _ hat (by rw [setNorm_length]; exact hlen), heapScoreAt_setNorm]
    · have hax : a = x := by
        rcases List.mem_cons.mp ha with h | h
        · exact h
        · exact absurd h hat
      subst hax
      rw [normApply_get?_ne g t _ a hat]
      exact setNorm_get?_self heap a _ hlen

/-! ## Claim theorems -/

/-- C4: for every query string, the pair returned by
`_compute_blend_weights` is one of the three outcomes (0.2, 0.8),
(0.4, 0.6), (0.7, 0.3), and in every case the sum of the two returned
floating-point values is exactly `1.0` under IEEE-754 binary64 addition —
no rounding deviation. -/
theorem C4_blend_weights_sum_exactly_one (query : String) :
    fpAdd (_compute_blend_weights query).1 (_compute_blend_weights query).2 = 1 ∧
      (_compute_blend_weights query = (py0_2, py0_8) ∨
        _compute_blend_weights query = (py0_4, py0_6) ∨
        _compute_blend_weights query = (py0_7, py0_3)) := by
  have h1 : fpAdd py0_2 py0_8 = 1 := by decide
  have h2 : fpAdd py0_4 py0_6 = 1 := by decide
  have h3 : fpAdd py0_7 py0_3 = 1 := by decide
  unfold _compute_blend_weights
  cases ha : _is_acronym_query query <;> cases hs : _is_short_query query <;> simp_all

/-- C8: `_generate_match_reason` agrees, for all inputs, with the fixed
decision table of the spec (`specExplain`): tier phrases for each present
score strictly above 0.3, joined `" + "` in semantic-before-keyword
order, per-source generic fallbacks when no tier phrase qualifies, and
the literal `"relevance match"` when both scores are absent; the weight
arguments never affect the result. -/
theorem C8_match_reason_table (s k : Option ℚ) (w1 w2 w1' w2' : ℚ) :
    _generate_match_reason s k w1 w2 = specExplain s k ∧
      _generate_match_reason s k w1 w2 = _generate_match_reason s k w1' w2' := by
  have main : ∀ (a b : ℚ), _generate_match_reason s k a b = specExplain s k := by
    intro a b
    rcases s with _ | sv <;> rcases k with _ | kv <;>
      simp only [_generate_match_reason, specExplain] <;>
        split_ifs <;> simp_all [joinSep]
  exact ⟨main w1 w2, (main w1 w2).trans (main w1' w2').symm⟩

/-- C1 counterexample: the claim says a present per-source score counts
toward the search mode even when its value is `0.0`.  On the batches
below (query `"WPU"`, `top_k = 1`) the truncated window is a single
result carrying a PRESENT semantic score of `0.0` and a present keyword
score of `1.0`: by the claim the mode would be `"hybrid"`, but the code's
truthiness test yields `"keyword"`. -/
theorem C1_counterexample :
    (hybrid_search_core "WPU" 1
        [⟨[("docId", "a")], 1, none, "semantic"⟩, ⟨[("docId", "b")], 0, none, "semantic"⟩]
        [⟨[("docId", "b")], 1, none, "keyword"⟩, ⟨[("docId", "c")], 0, none, "keyword"⟩]).results =
      [⟨[("docId", "b")], py0_8, some 0, some 1, "exact keyword match"⟩] ∧
    (hybrid_search_core "WPU" 1
        [⟨[("docId", "a")], 1, none, "semantic"⟩, ⟨[("docId", "b")], 0, none, "semantic"⟩]
        [⟨[("docId", "b")], 1, none, "keyword"⟩, ⟨[("docId", "c")], 0, none, "keyword"⟩]).search_mode =
      "keyword" ∧
    specSearchModeByPresence
      (hybrid_search_core "WPU" 1
        [⟨[("docId", "a")], 1, none, "semantic"⟩, ⟨[("docId", "b")], 0, none, "semantic"⟩]
        [⟨[("docId", "b")], 1, none, "keyword"⟩, ⟨[("docId", "c")], 0, none, "keyword"⟩]).results =
      "hybrid" := by
  refine ⟨by decide, by decide, by decide⟩

/-- C7: `_compute_blend_weights` returns (0.2, 0.8) exactly when the
trimmed query is classified as an acronym — which, because the mixed-case
regex branch is made unreachable by the extra `isupper()` check, holds
exactly for 2-6 character all-uppercase Latin strings (`matchAllCaps`) —
else (0.4, 0.6) exactly when the trimmed query has at most 2
whitespace-delimited tokens (the empty string counts as short), else
(0.7, 0.3); the acronym check takes precedence, the three weight pairs
are pairwise distinct, and the claim's named examples behave as stated. -/
theorem C7_blend_weight_selection (query : String) :
    _compute_blend_weights query =
      (if _is_acronym_query query then (py0_2, py0_8)
       else if _is_short_query query then (py0_4, py0_6)
       else (py0_7, py0_3)) ∧
    _is_acronym_query query = matchAllCaps (pyStrip query).toList ∧
    _is_short_query query = ((pySplit (pyStrip query)).length ≤ 2 : Bool) ∧
    ((py0_2, py0_8) ≠ (py0_4, py0_6) ∧ (py0_2, py0_8) ≠ (py0_7, py0_3) ∧
      (py0_4, py0_6) ≠ (py0_7, py0_3)) ∧
    (_is_acronym_query "WPU" = true ∧ _is_acronym_query "Wpu" = false ∧
      _is_acronym_query "wpu" = false ∧ _is_acronym_query "A" = false ∧
      _is_acronym_query "ABCDEFGH" = false ∧ _is_acronym_query "ABC123" = false ∧
      _is_short_query "" = true) ∧
    (_compute_blend_weights "WPU" = (py0_2, py0_8) ∧
      _compute_blend_weights "donors" = (py0_4, py0_6) ∧
      _compute_blend_weights "how do I track fundraising progress" = (py0_7, py0_3)) := by
  refine ⟨rfl, acronym_eq_allCaps query, rfl, ?_, ?_, ?_⟩
  · exact ⟨by decide, by decide, by decide⟩
  · exact ⟨by decide, by decide, by decide, by decide, by decide, by decide, by decide⟩
  · exact ⟨by decide, by decide, by decide⟩

/-- C1 amended: `searchMode` is derived from the truncated top-K window
by Python truthiness, not bare presence: a source counts as contributing
only if some truncated result carries that source's field present with a
NONZERO value ("hybrid" if both sources have such a result, "semantic"
if only the semantic side does, "keyword" otherwise). -/
theorem C1_amended_mode_from_truthiness (query : String) (top_k : Nat)
    (semantic_results keyword_results : List SearchItem) :
    (hybrid_search_core query top_k semantic_results keyword_results).search_mode =
      (if ((hybrid_search_core query top_k semantic_results keyword_results).results.any
            fun r => pyTruthyFloat r.semantic_score) &&
          ((hybrid_search_core query top_k semantic_results keyword_results).results.any
            fun r => pyTruthyFloat r.keyword_score) then "hybrid"
       else if (hybrid_search_core query top_k semantic_results keyword_results).results.any
            fun r => pyTruthyFloat r.semantic_score then "semantic"
       else "keyword") := rfl

/-- C3 counterexample: `_normalize_scores` does observably mutate the
caller's input.  On the one-element heap `[⟨1, none⟩]` with the caller's
list referencing address 0, the post-call heap differs from the pre-call
heap at the caller's own address (the object gained
`normalized_score = 1.0`), and the returned list is the caller's very
list of references. -/
theorem C3_counterexample :
    (_normalize_scores_heap [⟨1, none⟩] [0]).1 ≠ [⟨1, none⟩] ∧
      (_normalize_scores_heap [⟨1, none⟩] [0]).1 = [⟨1, some 1⟩] ∧
      (_normalize_scores_heap [⟨1, none⟩] [0]).2 = [0] := by
  refine ⟨by decide, by decide, by decide⟩

/-- C3 amended: `_normalize_scores` mutates the caller's batch in place
and returns the same list object: the returned reference list is the
input reference list; the heap keeps its size; objects not referenced by
the batch are untouched; and every referenced (valid) object afterwards
carries its original raw score together with a freshly written
`normalized_score`. -/
theorem C3_amended_normalize_mutates_in_place (heap : List ScoredDict) (refs : List Nat) :
    (_normalize_scores_heap heap refs).2 = refs ∧
      (_normalize_scores_heap heap refs).1.length = heap.length ∧
      (∀ b, b ∉ refs → (_normalize_scores_heap heap refs).1.get? b = heap.get? b) ∧
      (∀ a ∈ refs, a < heap.length →
        ∃ v, (_normalize_scores_heap heap refs).1.get? a =
          some ⟨heapScoreAt heap a, some v⟩) := by
  unfold _normalize_scores_heap
  by_cases he : refs.isEmpty
  · rw [if_pos he]
    refine ⟨rfl, rfl, fun b _ => rfl, fun a ha _ => ?_⟩
    rw [List.isEmpty_iff] at he
    subst he
    cases ha
  · rw [if_neg he]
    dsimp only
    split
    · exact ⟨rfl, normApply_length (fun _ => 1) refs heap,
        fun b hb => normApply_get?_ne (fun _ => 1) refs heap b hb,
        fun a ha hlen => ⟨1, normApply_get?_mem (fun _ => 1) refs heap a ha hlen⟩⟩
    · exact ⟨rfl,
        normApply_length
          (fun s => qdiv (qsub s (pyListMin (List.map (heapScoreAt heap) refs)))
            (qsub (pyListMax (List.map (heapScoreAt heap) refs))
              (pyListMin (List.map (heapScoreAt heap) refs)))) refs heap,
        fun b hb => normApply_get?_ne
          (fun s => qdiv (qsub s (pyListMin (List.map (heapScoreAt heap) refs)))
            (qsub (pyListMax (List.map (heapScoreAt heap) refs))
              (pyListMin (List.map (heapScoreAt heap) refs)))) refs heap b hb,
        fun a ha hlen => ⟨_, normApply_get?_mem
          (fun s => qdiv (qsub s (pyListMin (List.map (heapScoreAt heap) refs)))
            (qsub (pyListMax (List.map (heapScoreAt heap) refs))
              (pyListMin (List.map (heapScoreAt heap) refs))))
          refs heap a ha hlen⟩⟩

/-- Every search-mode label produced by the core is one of the three
enum values. -/
theorem core_mode_cases (query : String) (top_k : Nat)
    (semantic_results keyword_results : List SearchItem) :
    (hybrid_search_core query top_k semantic_results keyword_results).search_mode = "hybrid" ∨
      (hybrid_search_core query top_k semantic_results keyword_results).search_mode =
        "semantic" ∨
      (hybrid_search_core query top_k semantic_results keyword_results).search_mode =
        "keyword" := by
  unfold hybrid_search_core
  dsimp only
  split
  · exact Or.inl rfl
  · split
    · exact Or.inr (Or.inl rfl)
    · exact Or.inr (Or.inr rfl)

/-- C2: collaborator failure is swallowed at the adapter boundary and the
orchestrator degrades gracefully: an unavailable FAISS index yields an
empty semantic batch; a `sqlite3.Error` from every issued FTS query
yields an empty keyword batch; in each case the orchestrator's output
equals the fusion pipeline run with that source's batch empty (so the
other source still produces a valid result), and the returned search
mode is always one of the three enum values — no collaborator exception
reaches the fusion algorithm, whose inputs are always plain lists. -/
theorem C2_collaborator_failure_degrades (index : Option (List FaissHit))
    (getMeta : Int → Option Metadata) (runQuery : KwQuery → Except Unit (List KwRow))
    (query : String) (top_k fetch : Nat) (tf cf : Option String) :
    semantic_search none getMeta query fetch tf cf = [] ∧
      ((∀ c, runQuery c = Except.error ()) →
        (keyword_search runQuery query fetch tf cf).1 = []) ∧
      hybrid_search none getMeta runQuery query top_k tf cf =
        hybrid_search_core query top_k []
          ((keyword_search runQuery query fetch_k tf cf).1) ∧
      ((∀ c, runQuery c = Except.error ()) →
        hybrid_search index getMeta runQuery query top_k tf cf =
          hybrid_search_core query top_k
            (semantic_search index getMeta query fetch_k tf cf) []) ∧
      ((hybrid_search index getMeta runQuery query top_k tf cf).search_mode = "hybrid" ∨
        (hybrid_search index getMeta runQuery query top_k tf cf).search_mode = "semantic" ∨
        (hybrid_search index getMeta runQuery query top_k tf cf).search_mode = "keyword") := by
  have hkw : ∀ (fetch' : Nat), (∀ c, runQuery c = Except.error ()) →
      (keyword_search runQuery query fetch' tf cf).1 = [] := by
    intro fetch' h
    unfold keyword_search
    dsimp only
    split
    · rfl
    · rw [h]
  refine ⟨rfl, hkw fetch, rfl, ?_, core_mode_cases _ _ _ _⟩
  intro h
  unfold hybrid_search
  rw [hkw fetch_k h]

/-- Witness for C2 at a concrete always-failing SQLite oracle and a
missing FAISS index. -/
theorem C2_witness :
    (keyword_search (fun _ => Except.error ()) "donors" 30 none none).1 = [] ∧
      hybrid_search none (fun _ => none) (fun _ => Except.error ()) "donors" 10 none none =
        hybrid_search_core "donors" 10 []
          ((keyword_search (fun _ => Except.error ()) "donors" 30 none none).1) := by
  obtain ⟨h1, h2, h3, h4, h5⟩ := C2_collaborator_failure_degrades none (fun _ => none)
    (fun _ => Except.error ()) "donors" 10 30 none none
  exact ⟨h2 (fun c => rfl), h3⟩

/-- Collapsing a run of whitespace-only characters yields nothing (after
a space) or a single space (at the start). -/
theorem collapseWsAux_all_space (l : List Char) (h : ∀ c ∈ l, pyIsSpace c = true) :
    collapseWsAux true l = [] ∧
      (collapseWsAux false l = [] ∨ collapseWsAux false l = [' ']) := by
  induction l with
  | nil => exact ⟨rfl, Or.inl rfl⟩
  | cons c t ih =>
    have hc : pyIsSpace c = true := h c (List.mem_cons_self _ _)
    have ih' := ih (fun x hx => h x (List.mem_cons_of_mem _ hx))
    constructor
    · show collapseWsAux true (c :: t) = []
      simp [collapseWsAux, hc, ih'.1]
    · show (collapseWsAux false (c :: t) = [] ∨ collapseWsAux false (c :: t) = [' '])
      right
      simp [collapseWsAux, hc, ih'.1]

/-- A query whose characters all fall outside the word / whitespace /
hyphen / apostrophe classes sanitizes to the empty string. -/
theorem strip_collapse_all_space (l : List Char) (h : ∀ c ∈ l, pyIsSpace c = true) :
    pyStrip ⟨collapseWsAux false l⟩ = "" := by
  obtain ⟨-, hf⟩ := collapseWsAux_all_space l h
  rcases hf with hf | hf <;> rw [hf] <;> decide

theorem escape_empty_of_no_valid_char (query : String)
    (h : ∀ c ∈ query.toList,
      isWordChar c = false ∧ pyIsSpace c = false ∧ c ≠ '-' ∧ c ≠ apostropheChar) :
    _escape_fts_query query = "" := by
  unfold _escape_fts_query
  apply strip_collapse_all_space
  intro c hc
  rcases List.mem_map.mp hc with ⟨x, hx, rfl⟩
  obtain ⟨h1, h2, h3, h4⟩ := h x hx
  have hcond : (isWordChar x || pyIsSpace x || decide (x = '-') ||
      decide (x = apostropheChar)) = false := by
    simp [h1, h2, h3, h4]
  rw [if_neg (by simp [hcond])]
  decide

/-- When the keyword batch is empty, every result of the fusion pipeline
has its keyword score field absent. -/
theorem core_empty_kw_keyword_none (query : String) (top_k : Nat)
    (semantic_results : List SearchItem) :
    ∀ r ∈ (hybrid_search_core query top_k semantic_results []).results,
      r.keyword_score = none := by
  intro r hr
  have hmem := mem_results_of_core query top_k semantic_results [] r hr
  replace hmem : r ∈ mergeResults (_normalize_scores semantic_results "semantic") []
      (_compute_blend_weights query).1 (_compute_blend_weights query).2 := hmem
  unfold mergeResults at hmem
  rcases List.mem_map.mp hmem with ⟨id, -, rfl⟩
  have hiff := mergeEntry_keyword_isSome
    (buildById (_normalize_scores semantic_results "semantic")) (buildById [])
    (_compute_blend_weights query).1 (_compute_blend_weights query).2 id
  rw [show buildById ([] : List SearchItem) = [] from rfl, dictFind_nil] at hiff
  rcases hkres : (mergeEntry (buildById (_normalize_scores semantic_results "semantic")) []
      (_compute_blend_weights query).1 (_compute_blend_weights query).2 id).keyword_score
    with _ | v
  · exact hkres
  · rw [hkres] at hiff
    simp at hiff

/-- C10: a query with no word, whitespace, hyphen or apostrophe
characters (e.g. punctuation-only) sanitizes to the empty FTS string, so
`keyword_search` returns the empty list while issuing NO query to the
SQLite index; consequently in any hybrid search for such a query every
returned result's keyword score field is absent. -/
theorem C10_punctuation_only_no_keyword (index : Option (List FaissHit))
    (getMeta : Int → Option Metadata) (runQuery : KwQuery → Except Unit (List KwRow))
    (query : String) (top_k fetch : Nat) (tf cf : Option String)
    (h : ∀ c ∈ query.toList,
      isWordChar c = false ∧ pyIsSpace c = false ∧ c ≠ '-' ∧ c ≠ apostropheChar) :
    keyword_search runQuery query fetch tf cf = ([], []) ∧
      (∀ r ∈ (hybrid_search index getMeta runQuery query top_k tf cf).results,
        r.keyword_score = none) := by
  have hfts : _build_fts_query query = "" := by
    unfold _build_fts_query
    rw [escape_empty_of_no_valid_char query h]
    rfl
  have hkw : ∀ (fetch' : Nat), keyword_search runQuery query fetch' tf cf = ([], []) := by
    intro fetch'
    unfold keyword_search
    rw [hfts]
    rfl
  refine ⟨hkw fetch, ?_⟩
  intro r hr
  unfold hybrid_search at hr
  rw [hkw fetch_k] at hr
  exact core_empty_kw_keyword_none query top_k _ r hr

/-- Witness for C10 at the punctuation-only query `"?!;"`. -/
theorem C10_witness :
    keyword_search (fun _ => Except.ok []) "?!;" 30 none none = ([], []) := by
  exact (C10_punctuation_only_no_keyword none (fun _ => none) (fun _ => Except.ok [])
    "?!;" 10 30 none none (by decide)).1

/-- C6: `_normalize_scores` maps the empty batch to the empty batch; on a
non-empty batch, `pyListMin`/`pyListMax` are the minimum and maximum of
the raw scores; if they coincide every output item's normalized score is
exactly 1.0; otherwise every output item carries exactly
`(rawScore - min) / (max - min)`, which is exactly 0.0 for an item
holding the minimum raw score and exactly 1.0 for an item holding the
maximum. -/
theorem C6_normalize_minmax (results : List SearchItem) (source : String) :
    _normalize_scores [] source = [] ∧
      (results ≠ [] →
        (pyListMin (results.map (fun r => r.score)) ∈ results.map (fun r => r.score) ∧
          (∀ x ∈ results.map (fun r => r.score),
            pyListMin (results.map (fun r => r.score)) ≤ x) ∧
          pyListMax (results.map (fun r => r.score)) ∈ results.map (fun r => r.score) ∧
          (∀ x ∈ results.map (fun r => r.score),
            x ≤ pyListMax (results.map (fun r => r.score)))) ∧
        (pyListMax (results.map (fun r => r.score)) =
            pyListMin (results.map (fun r => r.score)) →
          _normalize_scores results source =
            results.map (fun r => { r with normalized_score := some 1 })) ∧
        (pyListMax (results.map (fun r => r.score)) ≠
            pyListMin (results.map (fun r => r.score)) →
          ∀ r ∈ _normalize_scores results source,
            r.normalized_score =
              some ((r.score - pyListMin (results.map (fun r => r.score))) /
                (pyListMax (results.map (fun r => r.score)) -
                  pyListMin (results.map (fun r => r.score)))) ∧
            (r.score = pyListMin (results.map (fun r => r.score)) →
              r.normalized_score = some 0) ∧
            (r.score = pyListMax (results.map (fun r => r.score)) →
              r.normalized_score = some 1))) := by
  have hmapne : results ≠ [] → results.map (fun r => r.score) ≠ [] := by
    intro hne hmap
    exact hne (by simpa using hmap)
  refine ⟨rfl, fun hne => ⟨⟨pyListMin_mem _ (hmapne hne), pyListMin_le _,
    pyListMax_mem _ (hmapne hne), pyListMax_le _⟩,
    fun hz => _normalize_scores_all_eq results source hne hz, fun hz => ?_⟩⟩
  intro r' hr'
  rw [_normalize_scores_minmax results source hne hz] at hr'
  rcases List.mem_map.mp hr' with ⟨r, hrmem, rfl⟩
  refine ⟨rfl, fun hmin => ?_, fun hmax => ?_⟩
  · replace hmin : r.score = pyListMin (results.map (fun r => r.score)) := hmin
    show some ((r.score - pyListMin (results.map (fun r => r.score))) /
      (pyListMax (results.map (fun r => r.score)) -
        pyListMin (results.map (fun r => r.score)))) = some 0
    rw [hmin, sub_self, zero_div]
  · replace hmax : r.score = pyListMax (results.map (fun r => r.score)) := hmax
    show some ((r.score - pyListMin (results.map (fun r => r.score))) /
      (pyListMax (results.map (fun r => r.score)) -
        pyListMin (results.map (fun r => r.score)))) = some 1
    rw [hmax, div_self (sub_ne_zero.mpr hz)]

/-- Witness for C6: the empty batch, an all-equal batch, and a batch with
distinct scores. -/
theorem C6_witness :
    _normalize_scores [] "semantic" = [] ∧
      _normalize_scores
          [⟨[("docId", "x")], 5, none, "semantic"⟩, ⟨[("docId", "y")], 5, none, "semantic"⟩]
          "semantic" =
        [⟨[("docId", "x")], 5, some 1, "semantic"⟩,
          ⟨[("docId", "y")], 5, some 1, "semantic"⟩] ∧
      (∀ r ∈ _normalize_scores
          [⟨[("docId", "x")], 4, none, "semantic"⟩, ⟨[("docId", "y")], 2, none, "semantic"⟩]
          "semantic",
        (r.score = pyListMin
            (([⟨[("docId", "x")], 4, none, "semantic"⟩,
              ⟨[("docId", "y")], 2, none, "semantic"⟩] : List SearchItem).map
              (fun r => r.score)) →
          r.normalized_score = some 0) ∧
        (r.score = pyListMax
            (([⟨[("docId", "x")], 4, none, "semantic"⟩,
              ⟨[("docId", "y")], 2, none, "semantic"⟩] : List SearchItem).map
              (fun r => r.score)) →
          r.normalized_score = some 1)) := by
  have hA := C6_normalize_minmax
    [⟨[("docId", "x")], 5, none, "semantic"⟩, ⟨[("docId", "y")], 5, none, "semantic"⟩]
    "semantic"
  have hB := C6_normalize_minmax
    [⟨[("docId", "x")], 4, none, "semantic"⟩, ⟨[("docId", "y")], 2, none, "semantic"⟩]
    "semantic"
  refine ⟨hA.1, ?_, ?_⟩
  · have h2 := (hA.2 (by decide)).2.1 (by decide)
    exact h2.trans rfl
  · intro r hr
    have h3 := (hB.2 (by decide)).2.2 (by decide) r hr
    exact ⟨h3.2.1, h3.2.2⟩

theorem itemId_spec (r : SearchItem) (id : String) (h : itemId r = some id) :
    mget r.metadata "docId" = some id ∧ id ≠ "" := by
  unfold itemId at h
  rcases hm : mget r.metadata "docId" with _ | id'
  · rw [hm] at h
    cases h
  · rw [hm] at h
    replace h : (if id' = "" then none else some id') = some id := h
    by_cases he : id' = ""
    · rw [if_pos he] at h
      cases h
    · rw [if_neg he] at h
      injection h with h
      subst h
      exact ⟨rfl, he⟩

theorem buildById_find_value (rs : List SearchItem) (k : String) (v : SearchItem)
    (h : dictFind (buildById rs) k = some v) : itemId v = some k := by
  refine buildByIdFrom_find_value rs [] ?_ k v h
  intro k' v' h'
  rw [dictFind_nil] at h'
  cases h'

theorem unionIds_mem_some (semM kwM : SIdict) (id : String) (h : id ∈ unionIds semM kwM) :
    (dictFind semM id).isSome = true ∨ (dictFind kwM id).isSome = true := by
  unfold unionIds at h
  rcases List.mem_append.mp h with h1 | h2
  · exact Or.inl ((dictFind_isSome_iff _ _).mpr h1)
  · exact Or.inr ((dictFind_isSome_iff _ _).mpr (List.mem_filter.mp h2).1)

/-- C9: every result returned by the fusion pipeline carries a metadata
record whose `docId` key is present and non-empty; and retrieval results
whose metadata lacks a truthy `docId` are silently dropped at the
dict-building step — merging any batches produces exactly the output
produced by merging only the items with a valid `docId`, regardless of
the dropped items' scores. -/
theorem C9_docid_invariant (query : String) (top_k : Nat)
    (semantic_results keyword_results : List SearchItem) :
    (∀ r ∈ (hybrid_search_core query top_k semantic_results keyword_results).results,
      ∃ id, mget r.metadata "docId" = some id ∧ id ≠ "") ∧
      (∀ (sw kww : ℚ) (sem kw : List SearchItem),
        mergeResults sem kw sw kww =
          mergeResults (sem.filter (fun r => (itemId r).isSome))
            (kw.filter (fun r => (itemId r).isSome)) sw kww) := by
  constructor
  · intro r hr
    have hmem := mem_results_of_core query top_k semantic_results keyword_results r hr
    unfold mergeResults at hmem
    rcases List.mem_map.mp hmem with ⟨id, hidmem, rfl⟩
    have hsome := unionIds_mem_some _ _ id hidmem
    apply mergeEntry_metadata _ _ _ _ _
      (fun md => ∃ id', mget md "docId" = some id' ∧ id' ≠ "")
    · intro v hv
      obtain ⟨hm, hne⟩ := itemId_spec v id (buildById_find_value _ id v hv)
      exact ⟨id, hm, hne⟩
    · intro v hv
      obtain ⟨hm, hne⟩ := itemId_spec v id (buildById_find_value _ id v hv)
      exact ⟨id, hm, hne⟩
    · exact hsome
  · intro sw kww sem kw
    have hsem : buildById (sem.filter (fun r => (itemId r).isSome)) = buildById sem :=
      buildByIdFrom_filter_valid sem []
    have hkw2 : buildById (kw.filter (fun r => (itemId r).isSome)) = buildById kw :=
      buildByIdFrom_filter_valid kw []
    unfold mergeResults
    rw [hsem, hkw2]

/-- Witness for C9 on the concrete hybrid run of the C1 example. -/
theorem C9_witness :
    ∃ id,
      mget (⟨[("docId", "b")], py0_8, some 0, some 1,
        "exact keyword match"⟩ : MergedResult).metadata "docId" = some id ∧ id ≠ "" := by
  have h := (C9_docid_invariant "WPU" 1
    [⟨[("docId", "a")], 1, none, "semantic"⟩, ⟨[("docId", "b")], 0, none, "semantic"⟩]
    [⟨[("docId", "b")], 1, none, "keyword"⟩, ⟨[("docId", "c")], 0, none, "keyword"⟩]).1
  exact h ⟨[("docId", "b")], py0_8, some 0, some 1, "exact keyword match"⟩ (by decide)

theorem list_contains_iff (l : List String) (a : String) :
    l.contains a = true ↔ a ∈ l := by
  simp [List.contains, List.elem_iff]

theorem union_list_nodup (k1 k2 : List String) (h1 : k1.Nodup) (h2 : k2.Nodup) :
    (k1 ++ k2.filter (fun k => !k1.contains k)).Nodup := by
  rw [List.nodup_append]
  refine ⟨h1, h2.filter _, ?_⟩
  intro a ha hb
  have hnot := (List.mem_filter.mp hb).2
  rw [Bool.not_eq_true'] at hnot
  have hcontra := (list_contains_iff k1 a).mpr ha
  rw [hnot] at hcontra
  cases hcontra

theorem union_list_card (k1 k2 : List String) (h1 : k1.Nodup) (h2 : k2.Nodup) :
    (k1 ++ k2.filter (fun k => !k1.contains k)).length =
      (k1.toFinset ∪ k2.toFinset).card := by
  have hnd : (k1 ++ k2.filter (fun k => !k1.contains k)).Nodup :=
    union_list_nodup k1 k2 h1 h2
  have hset : (k1 ++ k2.filter (fun k => !k1.contains k)).toFinset =
      k1.toFinset ∪ k2.toFinset := by
    ext a
    simp only [List.mem_toFinset, List.mem_append, List.mem_filter, Finset.mem_union]
    constructor
    · rintro (h | ⟨h, -⟩)
      · exact Or.inl h
      · exact Or.inr h
    · rintro (h | h)
      · exact Or.inl h
      · by_cases hk : a ∈ k1
        · exact Or.inl hk
        · refine Or.inr ⟨h, ?_⟩
          rw [Bool.not_eq_true']
          rcases hc : k1.contains a
          · rfl
          · exact absurd ((list_contains_iff k1 a).mp hc) hk
  rw [← hset, List.toFinset_card_of_nodup hnd]

theorem buildById_keys_of_valid (rs : List SearchItem)
    (hnd : (idsOf rs).Nodup) : dictKeys (buildById rs) = idsOf rs := by
  have h := buildByIdFrom_keys rs [] (by intro k _ hk; cases hk) hnd
  simpa using h

theorem mergeEntry_docId (sem kw : List SearchItem) (sw kww : ℚ) (id : String)
    (hid : id ∈ unionIds (buildById sem) (buildById kw)) :
    mget (mergeEntry (buildById sem) (buildById kw) sw kww id).metadata "docId" = some id ∧
      id ≠ "" := by
  have hsome := unionIds_mem_some _ _ id hid
  apply mergeEntry_metadata _ _ _ _ _ (fun md => mget md "docId" = some id ∧ id ≠ "")
  · intro v hv
    exact itemId_spec v id (buildById_find_value _ id v hv)
  · intro v hv
    exact itemId_spec v id (buildById_find_value _ id v hv)
  · exact hsome

/-- C5: merging two normalized batches whose identities are unique,
present and non-empty produces exactly one result per identity of the
set union: the result count is the union's cardinality and the results'
identities are pairwise distinct; each result's per-source score field
is present exactly when that source's batch contains its identity
(absent, not zero, otherwise); and every result's blended score equals
`semanticWeight * (semantic score or 0) + keywordWeight * (keyword score or 0)`. -/
theorem C5_merge_union (sem kw : List SearchItem) (sw kww : ℚ)
    (hsem_nodup : (idsOf sem).Nodup) (hkw_nodup : (idsOf kw).Nodup) :
    (mergeResults sem kw sw kww).length =
      ((idsOf sem).toFinset ∪ (idsOf kw).toFinset).card ∧
      (∀ m ∈ mergeResults sem kw sw kww,
        m.score = sw * (m.semantic_score.getD 0) + kww * (m.keyword_score.getD 0)) ∧
      (∀ m ∈ mergeResults sem kw sw kww,
        ∃ id, mget m.metadata "docId" = some id ∧ id ≠ "" ∧
          (m.semantic_score.isSome = true ↔ id ∈ idsOf sem) ∧
          (m.keyword_score.isSome = true ↔ id ∈ idsOf kw)) ∧
      ((mergeResults sem kw sw kww).map (fun m => mget m.metadata "docId")).Nodup := by
  have hkeys_sem : dictKeys (buildById sem) = idsOf sem := buildById_keys_of_valid sem hsem_nodup
  have hkeys_kw : dictKeys (buildById kw) = idsOf kw := buildById_keys_of_valid kw hkw_nodup
  refine ⟨?_, ?_, ?_, ?_⟩
  · show ((unionIds (buildById sem) (buildById kw)).map
      (mergeEntry (buildById sem) (buildById kw) sw kww)).length = _
    rw [List.length_map]
    unfold unionIds
    rw [hkeys_sem, hkeys_kw]
    exact union_list_card (idsOf sem) (idsOf kw) hsem_nodup hkw_nodup
  · intro m hm
    replace hm : m ∈ (unionIds (buildById sem) (buildById kw)).map
      (mergeEntry (buildById sem) (buildById kw) sw kww) := hm
    rcases List.mem_map.mp hm with ⟨id, -, rfl⟩
    exact mergeEntry_score _ _ _ _ id
  · intro m hm
    replace hm : m ∈ (unionIds (buildById sem) (buildById kw)).map
      (mergeEntry (buildById sem) (buildById kw) sw kww) := hm
    rcases List.mem_map.mp hm with ⟨id, hidmem, rfl⟩
    have hmeta := mergeEntry_docId sem kw sw kww id hidmem
    refine ⟨id, hmeta.1, hmeta.2, ?_, ?_⟩
    · rw [mergeEntry_semantic_isSome, dictFind_isSome_iff, hkeys_sem]
    · rw [mergeEntry_keyword_isSome, dictFind_isSome_iff, hkeys_kw]
  · have hids : (mergeResults sem kw sw kww).map (fun m => mget m.metadata "docId") =
        (unionIds (buildById sem) (buildById kw)).map (fun id => some id) := by
      show ((unionIds (buildById sem) (buildById kw)).map
        (mergeEntry (buildById sem) (buildById kw) sw kww)).map
          (fun m => mget m.metadata "docId") = _
      rw [List.map_map]
      apply List.map_congr_left
      intro id hid
      exact (mergeEntry_docId sem kw sw kww id hid).1
    rw [hids]
    apply List.Nodup.map (Option.some_injective String)
    unfold unionIds
    rw [hkeys_sem, hkeys_kw]
    exact union_list_nodup _ _ hsem_nodup hkw_nodup

/-- Witness for C5 on concrete batches with identities a, b (semantic)
and b, c (keyword). -/
theorem C5_witness :
    (mergeResults
        [⟨[("docId", "a")], 1, some 1, "semantic"⟩, ⟨[("docId", "b")], 0, some 0, "semantic"⟩]
        [⟨[("docId", "b")], 1, some 1, "keyword"⟩, ⟨[("docId", "c")], 0, some 0, "keyword"⟩]
        py0_2 py0_8).length = 3 ∧
      (∀ m ∈ mergeResults
          [⟨[("docId", "a")], 1, some 1, "semantic"⟩,
            ⟨[("docId", "b")], 0, some 0, "semantic"⟩]
          [⟨[("docId", "b")], 1, some 1, "keyword"⟩,
            ⟨[("docId", "c")], 0, some 0, "keyword"⟩]
          py0_2 py0_8,
        m.score = py0_2 * (m.semantic_score.getD 0) + py0_8 * (m.keyword_score.getD 0)) := by
  have h := C5_merge_union
    [⟨[("docId", "a")], 1, some 1, "semantic"⟩, ⟨[("docId", "b")], 0, some 0, "semantic"⟩]
    [⟨[("docId", "b")], 1, some 1, "keyword"⟩, ⟨[("docId", "c")], 0, some 0, "keyword"⟩]
    py0_2 py0_8 (by decide) (by decide)
  refine ⟨?_, h.2.1⟩
  rw [h.1]
  decide

/-- Witness for the C3 amended theorem at a concrete two-element batch. -/
theorem C3_amended_witness :
    (_normalize_scores_heap [⟨4, none⟩, ⟨2, none⟩] [0, 1]).2 = [0, 1] ∧
      (_normalize_scores_heap [⟨4, none⟩, ⟨2, none⟩] [0, 1]).1.length = 2 ∧
      (∃ v, (_normalize_scores_heap [⟨4, none⟩, ⟨2, none⟩] [0, 1]).1.get? 0 =
        some ⟨4, some v⟩) := by
  obtain ⟨h1, h2, -, h4⟩ :=
    C3_amended_normalize_mutates_in_place [⟨4, none⟩, ⟨2, none⟩] [0, 1]
  refine ⟨h1, h2, ?_⟩
  have := h4 0 (by decide) (by decide)
  simpa [heapScoreAt] using this

end Spec2Proof
